import Mathlib

/-!
Verification of the LottaWords Letter Boxed solver
(`src/backend/src/lottawords/solver.py`, class `LetterBoxedSolver`).

The Python code is shallowly embedded:
* a word (Python `str`) is a `List Char`;
* a square (Python `Dict[str, Set[str]]`, insertion ordered) is an ordered
  association list `List (String × List Char)`;
* Python `set` values whose use is order-insensitive become `Finset Char`;
* `str.lower()` becomes `List.map Char.toLower` (the dictionaries in play are
  basic-latin, matching `Char.toLower`'s domain);
* Python `list.sort` / `sorted` (stable) becomes `List.insertionSort`, which
  is stable with the non-strict key orders used here;
* the bounded `while` loop of `find_shortest_solution` becomes structural
  recursion on the remaining iteration budget (`max_iterations`).
-/

/-- A word: Python `str` as a list of characters. -/
abbrev Word := List Char

/-- A square: the Python dict `{side: letters}`, in insertion order. -/
abbrev Square := List (String × List Char)

/-- A state of the search: `(current_words, used_letters)`. -/
abbrev ChainState := List Word × Finset Char

/-- A visited-set key: `(tuple(current_words), ''.join(sorted(used_letters)))`. -/
abbrev StateKey := List Word × List Char

/-- `_normalize_square`: every side's letters lowercased and made a set
(solver.py lines 20-30).  The set is modelled as a deduplicated list since
the square is iterated side by side downstream. -/
def normalizeSquare (square : Square) : Square :=
  square.map (fun p => (p.1, (p.2.map Char.toLower).dedup))

/-- The union `all_letters` of the side letter-sets of an (already
normalized) square, as built inside `is_valid_word` (solver.py lines 58-60). -/
def squareUnion (square : Square) : Finset Char :=
  square.foldl (fun acc p => acc ∪ p.2.toFinset) ∅

/-- The set of all puzzle letters, lowercased from the raw square, as built
in `covers_all_letters` (lines 92-98) and again at lines 201-206
(`all_puzzle_letters`); both loops lowercase each letter of each side. -/
def allLetters (square : Square) : Finset Char :=
  square.foldl (fun acc p => acc ∪ (p.2.map Char.toLower).toFinset) ∅

/-- The `letter_sides` map of `is_valid_word` (lines 68-72): iterate the
sides in order and assign every letter to the side at hand, the last
assignment silently winning. -/
def letterSides (square : Square) : Char → Option String :=
  square.foldl (fun m p => p.2.foldl (fun m c => Function.update m c (some p.1)) m)
    (fun _ => none)

/-- The consecutive-letters check of `is_valid_word` (lines 74-81): the word
is rejected as soon as two adjacent letters map to the same side. -/
def consecDiff (ls : Char → Option String) : Word → Bool
  | [] => true
  | [_] => true
  | a :: b :: rest => !(decide (ls a = ls b)) && consecDiff ls (b :: rest)

/-- `is_valid_word(word, square)` (solver.py lines 32-84): empty words fail;
the word and the square are lowercased; every letter must lie in the union of
the sides; no two consecutive letters may map to the same side. -/
def is_valid_word (word : Word) (square : Square) : Bool :=
  if word = [] then false
  else
    let w := word.map Char.toLower
    let nsq := normalizeSquare square
    let all := squareUnion nsq
    if w.any (fun c => decide (c ∉ all)) then false
    else consecDiff (letterSides nsq) w

/-- `covers_all_letters(used_letters, square)` (lines 86-110): lowercase the
used letters, gather the square's letters lowercased, and require that no
square letter is missing. -/
def covers_all_letters (used : Finset Char) (square : Square) : Bool :=
  decide (allLetters square \ used.image Char.toLower = ∅)

/-- The square of the repository's unit tests (`test_solver.py`). -/
def sampleSquare : Square :=
  [("top", ['A', 'B', 'C']), ("right", ['D', 'E', 'F']),
   ("bottom", ['G', 'H', 'I']), ("left", ['J', 'K', 'L'])]

/-- A square whose sides `x`/`y` are unreachable from the dictionaries used
with it, so the solver must fall back to a partial result. -/
def sqPartial : Square := [("s1", ['a']), ("s2", ['b']), ("s3", ['x']), ("s4", ['y'])]

/-- A four-side square with one letter per side. -/
def sqSingle : Square := [("s1", ['a']), ("s2", ['b']), ("s3", ['c']), ("s4", ['d'])]

/-- A square in which letter `a` appears on two sides (`top` and `bottom`). -/
def sqAmbig : Square :=
  [("top", ['a']), ("right", ['b']), ("bottom", ['a', 'c']), ("left", ['d'])]

/-- Key order of `playable_words.sort(key=lambda w: (len(w), -len(set(w))))`
(line 181): length ascending, then distinct-letter count descending. -/
def playSortLe (a b : Word) : Prop :=
  a.length < b.length ∨ (a.length = b.length ∧ b.toFinset.card ≤ a.toFinset.card)

instance : DecidableRel playSortLe := fun a b => by unfold playSortLe; infer_instance

instance : IsTotal Word playSortLe := ⟨by intro a b; unfold playSortLe; omega⟩

instance : IsTrans Word playSortLe := ⟨by intro a b c; unfold playSortLe; omega⟩

/-- The filtering loop of lines 160-169: skip empty entries, lowercase the
rest, and keep those passing `is_valid_word` against the normalized square
(the list `playable_words` before sorting). -/
def rawPlayable (nsq : Square) (words : List Word) : List Word :=
  words.filterMap (fun word =>
    if word = [] then none
    else
      let wl := word.map Char.toLower
      if is_valid_word wl nsq then some wl else none)

/-- `playable_words` after the stable sort of line 181. -/
def playableWords (nsq : Square) (words : List Word) : List Word :=
  List.insertionSort playSortLe (rawPlayable nsq words)

/-- One iteration of the `original_case` recording loop (lines 160-169):
skip empty entries, and for valid ones assign
`original_case[word_lower] = word`, overwriting any earlier assignment. -/
def ocStep (nsq : Square) (m : Word → Option Word) (word : Word) : Word → Option Word :=
  if word = [] then m
  else
    let wl := word.map Char.toLower
    if is_valid_word wl nsq then Function.update m wl (some word) else m

/-- The `original_case` dict of lines 154-169. -/
def originalCase (nsq : Square) (words : List Word) : Word → Option Word :=
  words.foldl (ocStep nsq) (fun _ => none)

/-- The guard under which the loop of lines 160-169 records an entry. -/
def ocKeeps (nsq : Square) (w : Word) (o : Word) : Prop :=
  o ≠ [] ∧ is_valid_word (o.map Char.toLower) nsq = true ∧ o.map Char.toLower = w

instance (nsq : Square) (w : Word) : DecidablePred (ocKeeps nsq w) := fun o => by
  unfold ocKeeps
  infer_instance

/-- One iteration of the `first_letter_map` building loop (lines 187-195):
skip empty words, append the word to the bucket of its first letter. -/
def flmStep (m : Char → List Word) (word : Word) : Char → List Word :=
  match word with
  | [] => m
  | c :: _ => Function.update m c (m c ++ [word])

/-- The `first_letter_map` of lines 184-195: map each first letter to the
playable words beginning with it, in `playable_words` order. -/
def firstLetterMap (playable : List Word) : Char → List Word :=
  playable.foldl flmStep (fun _ => [])

/-- The union of the distinct-letter sets of the words of a chain
(`unique_letters_map[w] = set(w)` accumulated with `|`). -/
def unionLetters (ws : List Word) : Finset Char :=
  ws.foldr (fun w acc => w.toFinset ∪ acc) ∅

/-- Key order of `prioritized_words.sort(key=lambda x: (-x[1], len(x[0])))`
(line 271): newly-covered-letter count descending, then length ascending. -/
def prioLe (x y : Word × Nat) : Prop :=
  y.2 < x.2 ∨ (x.2 = y.2 ∧ x.1.length ≤ y.1.length)

instance : DecidableRel prioLe := fun x y => by unfold prioLe; infer_instance

instance : IsTotal (Word × Nat) prioLe := ⟨by intro a b; unfold prioLe; omega⟩

instance : IsTrans (Word × Nat) prioLe := ⟨by intro a b c; unfold prioLe; omega⟩

/-- `max_solution_length` (line 219). -/
def max_solution_length : Nat := 5

/-- `max_iterations` (line 221). -/
def max_iterations : Nat := 100000

/-- One expansion step of the search (lines 257-280): look up the successors
of the last letter of the last word, score each by the count of letters it
would newly cover, sort by `(-score, length)`, truncate to the branch limit
(25 at depth 1, else 15) and build the child states.  The chains in the
queue are nonempty lists of nonempty words (they come from `playable_words`),
so the two `getLastD` defaults are never consulted. -/
def expandState (flm : Char → List Word) (cw : List Word) (ul : Finset Char) :
    List ChainState :=
  let last_letter := (cw.getLastD []).getLastD 'a'
  let next_words := flm last_letter
  let prioritized := next_words.map (fun w => (w, (w.toFinset \ ul).card))
  let sortedP := List.insertionSort prioLe prioritized
  let branch_limit := if cw.length = 1 then 25 else 15
  (sortedP.take branch_limit).map (fun wi => (cw ++ [wi.1], ul ∪ wi.1.toFinset))

/-- `''.join(sorted(used_letters))`: the elements of a letter set in
ascending order (any two permuted listings sort to the same list). -/
def sortChars (ul : Finset Char) : List Char :=
  Quot.liftOn ul.val (fun l => List.insertionSort (fun a b : Char => a ≤ b) l)
    (fun l₁ l₂ h =>
      List.eq_of_perm_of_sorted
        (((List.perm_insertionSort _ l₁).trans h).trans
          (List.perm_insertionSort _ l₂).symm)
        (List.sorted_insertionSort _ l₁) (List.sorted_insertionSort _ l₂))

/-- The visited-set key of a state (line 232). -/
def keyOf (s : ChainState) : StateKey := (s.1, sortChars s.2)

/-- The pruning test of line 229: `min_solution and len(current_words) >=
min_solution_len` (a recorded solution is a nonempty list, hence truthy). -/
def pruneGate (best : Option (List Word)) (cw : List Word) : Bool :=
  match best with
  | some b => decide (b.length ≤ cw.length)
  | none => false

/-- The bounded search loop of lines 223-281, by structural recursion on the
remaining iteration budget.  Branches, in source order: branch-and-bound
pruning against the best solution so far; visited-key deduplication; goal
test (`issubset` then the `covers_all_letters` double check, recording the
solution and breaking at length ≤ 2); depth cap; expansion. -/
def searchLoop (square : Square) (allP : Finset Char) (flm : Char → List Word) :
    Nat → List ChainState → List StateKey → Option (List Word) → Option (List Word)
  | 0, _, _, best => best
  | _ + 1, [], _, best => best
  | fuel + 1, (cw, ul) :: rest, visited, best =>
    if pruneGate best cw then
      searchLoop square allP flm fuel rest visited best
    else if keyOf (cw, ul) ∈ visited then
      searchLoop square allP flm fuel rest visited best
    else if allP ⊆ ul then
      if covers_all_letters ul square then
        if cw.length ≤ 2 then some cw
        else searchLoop square allP flm fuel rest (keyOf (cw, ul) :: visited) (some cw)
      else searchLoop square allP flm fuel rest (keyOf (cw, ul) :: visited) best
    else if max_solution_length ≤ cw.length then
      searchLoop square allP flm fuel rest (keyOf (cw, ul) :: visited) best
    else
      searchLoop square allP flm fuel (rest ++ expandState flm cw ul)
        (keyOf (cw, ul) :: visited) best

/-- The search phase of `find_shortest_solution`: queue seeded with one
state per playable word (lines 210-212), then the loop; `min_solution` at
exit. -/
def solveCore (square : Square) (dictionary : List Word) : Option (List Word) :=
  let playable := playableWords (normalizeSquare square) dictionary
  searchLoop square (allLetters square) (firstLetterMap playable) max_iterations
    (playable.map (fun w => ([w], w.toFinset))) [] none

/-- Key order of the fallback sort (lines 310-311):
`sorted(playable_words, key=lambda w: (len(set(w) & all_puzzle_letters), -len(w)))`,
overlap with the puzzle letters ascending, then length descending. -/
def fallbackLe (allP : Finset Char) (a b : Word) : Prop :=
  (a.toFinset ∩ allP).card < (b.toFinset ∩ allP).card ∨
    ((a.toFinset ∩ allP).card = (b.toFinset ∩ allP).card ∧ b.length ≤ a.length)

instance (allP : Finset Char) : DecidableRel (fallbackLe allP) := fun a b => by
  unfold fallbackLe; infer_instance

instance (allP : Finset Char) : IsTotal Word (fallbackLe allP) :=
  ⟨by intro a b; unfold fallbackLe; omega⟩

instance (allP : Finset Char) : IsTrans Word (fallbackLe allP) :=
  ⟨by intro a b c; unfold fallbackLe; omega⟩

/-- `find_shortest_solution(square, dictionary)` (lines 118-333) for an
actual list argument.  The guard of line 130 rejects an empty list; the
items are already strings, so the coercion of line 136 is the identity; a
found solution is mapped back through `original_case` (the `except` branch
of line 302 keeps the lowercase solution if any lookup were to fail); with
no solution but playable words, the fallback returns the last word of the
fallback sort, via `original_case.get(best_word, best_word)`. -/
def find_shortest_solution (square : Square) (dictionary : List Word) : List Word :=
  if dictionary = [] then []
  else
    let nsq := normalizeSquare square
    let playable := playableWords nsq dictionary
    if playable = [] then []
    else
      let ocF := originalCase nsq dictionary
      match solveCore square dictionary with
      | some sol =>
        if sol.all (fun w => (ocF w).isSome) then sol.map (fun w => (ocF w).getD w)
        else sol
      | none =>
        let best_words := List.insertionSort (fallbackLe (allLetters square)) playable
        match best_words.getLast? with
        | some bw => [(ocF bw).getD bw]
        | none => []

/-- A dictionary entry as passed from Python: a string, or an object whose
`str()` raises. -/
inductive PyEntry where
  | str (w : Word)
  | nonCoercible
deriving DecidableEq

/-- The `dictionary` argument surface of `find_shortest_solution`: `None`,
a non-list object, or a list of entries. -/
inductive DictArg where
  | noneArg
  | notAList
  | listArg (entries : List PyEntry)
deriving DecidableEq

/-- The string extracted from a coercible entry. -/
def PyEntry.getWord : PyEntry → Word
  | .str w => w
  | .nonCoercible => []

/-- `find_shortest_solution` over its full Python argument surface
(lines 129-139): `None` and `[]` are falsy and non-lists fail `isinstance`,
each returning `[]`; an entry whose `str()` raises is caught and `[]` is
returned; otherwise the solver proper runs on the coerced strings. -/
def find_shortest_solution_arg (square : Square) : DictArg → List Word
  | .noneArg => []
  | .notAList => []
  | .listArg [] => []
  | .listArg entries =>
    if entries.any (· = PyEntry.nonCoercible) then []
    else find_shortest_solution square (entries.map PyEntry.getWord)

/-- The mutable inputs of one `find_shortest_solution` call: the square
mapping and the dictionary list, as a store. -/
structure SolverInput where
  square : Square
  dictionary : List Word

/-- `find_shortest_solution` with its argument store threaded explicitly.
Every statement of the source that touches `square` or `dictionary` is a
read: line 136 builds a fresh coerced list, `_normalize_square` (line 145)
builds a fresh dict, the index structures and `result` are fresh locals
(the only subscript assignment, line 331, writes into the local `result`).
The store therefore passes through unchanged next to the pure result. -/
def find_shortest_solution_stateful (st : SolverInput) : List Word × SolverInput :=
  (find_shortest_solution st.square st.dictionary, st)

/-- Adjacent words of a chain link up: the last letter of each word is the
first letter of the next. -/
def Chained (ws : List Word) : Prop :=
  List.Chain' (fun a b => a.getLast? = b.head?) ws

/-- Well-formedness of a queue state: a nonempty chain of playable words,
chained, whose used-letters component is exactly the union of the words'
distinct-letter sets. -/
def StateWF (playable : List Word) (s : ChainState) : Prop :=
  s.1 ≠ [] ∧ (∀ w ∈ s.1, w ∈ playable) ∧ Chained s.1 ∧ s.2 = unionLetters s.1

/-- The structural guarantees of a complete (non-partial) solution. -/
def SolOK (sq : Square) (ws : List Word) (sol : List Word) : Prop :=
  sol ≠ [] ∧ (∀ w ∈ sol, w ∈ playableWords (normalizeSquare sq) ws) ∧ Chained sol ∧
    allLetters sq ⊆ unionLetters sol

/-- After case normalization, each letter belongs to at most one side: any
two sides containing a common letter are the same side.  (Decidable, since
it quantifies over the listed sides and letters.) -/
def UnambiguousSquare (sq : Square) : Prop :=
  ∀ p ∈ normalizeSquare sq, ∀ q ∈ normalizeSquare sq, ∀ c ∈ p.2, c ∈ q.2 → p.1 = q.1

instance (sq : Square) : Decidable (UnambiguousSquare sq) := by
  unfold UnambiguousSquare
  infer_instance

/-- Two lowercased letters lie on a common side of the square. -/
def SameSide (sq : Square) (a b : Char) : Prop :=
  ∃ p ∈ normalizeSquare sq, a ∈ p.2 ∧ b ∈ p.2

/-- A queue state that, once dequeued, ends the search at once: well
formed, at most two words, and already covering the puzzle. -/
def HotState (sq : Square) (playable : List Word) (s : ChainState) : Prop :=
  StateWF playable s ∧ s.1.length ≤ 2 ∧ allLetters sq ⊆ s.2

/-- First phase of the two-word-chain argument: the seed of `w1` is still
in the queue, preceded only by single-word states, followed only by states
of at most two words, its key unvisited, and only single-word keys visited
so far. -/
def PhaseA (playable : List Word) (w1 : Word) (q : List ChainState)
    (v : List StateKey) : Prop :=
  (∀ s ∈ q, StateWF playable s) ∧
  (∃ q1 q2, q = q1 ++ ([w1], w1.toFinset) :: q2 ∧
    (∀ s ∈ q1, s.1.length = 1) ∧ (∀ s ∈ q2, s.1.length ≤ 2)) ∧
  keyOf ([w1], w1.toFinset) ∉ v ∧ (∀ k ∈ v, k.1.length = 1)

/-- Second phase: a hot state sits in the queue with an unvisited key,
preceded only by states of at most two words. -/
def PhaseB (sq : Square) (playable : List Word) (q : List ChainState)
    (v : List StateKey) : Prop :=
  (∀ s ∈ q, StateWF playable s) ∧
  ∃ q1 s0 q2, q = q1 ++ s0 :: q2 ∧ HotState sq playable s0 ∧ keyOf s0 ∉ v ∧
    ∀ s ∈ q1, s.1.length ≤ 2

/-! ### Sanity checks

Concrete evaluations matching the repository's own unit tests
(`test_solver.py`) and the spec's Scenario A. -/

example : is_valid_word ['C','H','J','C'] sampleSquare = true := by decide
example : is_valid_word ['C','H','E','F'] sampleSquare = false := by decide
example : is_valid_word ['X','Y','Z'] sampleSquare = false := by decide
example : is_valid_word ['C','h','J','c'] sampleSquare = true := by decide
example : covers_all_letters (['A','B','C','D','E','F','G','H','I','J','K','L'].toFinset)
    sampleSquare = true := by decide
example : covers_all_letters (['A','B','C','D','E','F'].toFinset) sampleSquare = false := by
  decide
example :
    find_shortest_solution sampleSquare
      [['A','G','B','H','C','I'], ['I','J','D','K','E','L','F']] =
      [['A','G','B','H','C','I'], ['I','J','D','K','E','L','F']] := by decide

/-! ### Character-level lemmas -/

theorem char_toNat_ofNat_of_lt {n : Nat} (h : n < 55296) : (Char.ofNat n).toNat = n := by
  unfold Char.ofNat
  rw [dif_pos (Or.inl h)]
  rfl

/-- `str.lower` is idempotent character by character. -/
theorem toLower_toLower (c : Char) : c.toLower.toLower = c.toLower := by
  unfold Char.toLower
  by_cases h : c.toNat ≥ 65 ∧ c.toNat ≤ 90
  · rw [if_pos h]
    have hv : (Char.ofNat (c.toNat + 32)).toNat = c.toNat + 32 :=
      char_toNat_ofNat_of_lt (by omega)
    rw [if_neg (by rw [hv]; omega)]
  · rw [if_neg h, if_neg h]

theorem map_toLower_idem (w : Word) :
    (w.map Char.toLower).map Char.toLower = w.map Char.toLower := by
  rw [List.map_map]
  exact List.map_congr_left fun c _ => toLower_toLower c

/-! ### Square-level lemmas -/

theorem normalizeSquare_idem (sq : Square) :
    normalizeSquare (normalizeSquare sq) = normalizeSquare sq := by
  unfold normalizeSquare
  rw [List.map_map]
  refine List.map_congr_left fun p _ => ?_
  refine Prod.ext rfl ?_
  show (((p.2.map Char.toLower).dedup).map Char.toLower).dedup = (p.2.map Char.toLower).dedup
  have h1 : ∀ c ∈ (p.2.map Char.toLower).dedup, Char.toLower c = id c := by
    intro c hc
    rcases List.mem_map.1 (List.mem_dedup.1 hc) with ⟨x, _, rfl⟩
    exact toLower_toLower x
  rw [List.map_congr_left h1, List.map_id, List.dedup_idem]

theorem mem_foldl_union {β : Type} (f : β → Finset Char) (l : List β) (acc : Finset Char)
    (c : Char) : c ∈ l.foldl (fun acc p => acc ∪ f p) acc ↔ c ∈ acc ∨ ∃ p ∈ l, c ∈ f p := by
  induction l generalizing acc with
  | nil => simp
  | cons q l ih =>
    rw [List.foldl_cons, ih]
    simp only [Finset.mem_union, List.mem_cons]
    constructor
    · rintro (( h | h) | ⟨p, hp, hc⟩)
      · exact Or.inl h
      · exact Or.inr ⟨q, Or.inl rfl, h⟩
      · exact Or.inr ⟨p, Or.inr hp, hc⟩
    · rintro (h | ⟨p, (rfl | hp), hc⟩)
      · exact Or.inl (Or.inl h)
      · exact Or.inl (Or.inr hc)
      · exact Or.inr ⟨p, hp, hc⟩

theorem mem_allLetters {sq : Square} {c : Char} :
    c ∈ allLetters sq ↔ ∃ p ∈ sq, c ∈ p.2.map Char.toLower := by
  unfold allLetters
  refine Iff.trans (mem_foldl_union (fun p => (p.2.map Char.toLower).toFinset) sq ∅ c) ?_
  simp

theorem mem_squareUnion {sq : Square} {c : Char} :
    c ∈ squareUnion sq ↔ ∃ p ∈ sq, c ∈ p.2 := by
  unfold squareUnion
  refine Iff.trans (mem_foldl_union (fun p => p.2.toFinset) sq ∅ c) ?_
  simp

/-- The union built inside `is_valid_word` over the normalized square is the
puzzle letter set built at lines 92-98 / 201-206 over the raw square. -/
theorem squareUnion_normalizeSquare (sq : Square) :
    squareUnion (normalizeSquare sq) = allLetters sq := by
  ext c
  rw [mem_squareUnion, mem_allLetters]
  unfold normalizeSquare
  constructor
  · rintro ⟨p, hp, hc⟩
    rcases List.mem_map.1 hp with ⟨q, hq, rfl⟩
    exact ⟨q, hq, List.mem_dedup.1 hc⟩
  · rintro ⟨p, hp, hc⟩
    exact ⟨(p.1, (p.2.map Char.toLower).dedup), List.mem_map.2 ⟨p, hp, rfl⟩,
      List.mem_dedup.2 hc⟩

/-- Every puzzle letter is already lowercase. -/
theorem allLetters_lowerClosed {sq : Square} {c : Char} (h : c ∈ allLetters sq) :
    c.toLower = c := by
  rcases mem_allLetters.1 h with ⟨p, _, hc⟩
  rcases List.mem_map.1 hc with ⟨x, _, rfl⟩
  exact toLower_toLower x

/-! ### Word-validity lemmas -/

/-- `is_valid_word` split into its three checks. -/
theorem is_valid_word_parts (w : Word) (sq : Square) :
    is_valid_word w sq = true ↔
      w ≠ [] ∧ (∀ c ∈ w.map Char.toLower, c ∈ squareUnion (normalizeSquare sq)) ∧
        consecDiff (letterSides (normalizeSquare sq)) (w.map Char.toLower) = true := by
  unfold is_valid_word
  by_cases h : w = []
  · simp [h]
  · rw [if_neg h]
    by_cases h2 : ∀ c ∈ w.map Char.toLower, c ∈ squareUnion (normalizeSquare sq)
    · have hany : ((w.map Char.toLower).any fun c =>
          decide (c ∉ squareUnion (normalizeSquare sq))) = false := by
        rw [List.any_eq_false]
        intro c hc
        simpa using h2 c hc
      simp [hany, h, h2]
    · have hany : ((w.map Char.toLower).any fun c =>
          decide (c ∉ squareUnion (normalizeSquare sq))) = true := by
        rw [List.any_eq_true]
        push_neg at h2
        rcases h2 with ⟨c, hc, hnc⟩
        exact ⟨c, hc, by simpa using hnc⟩
      constructor
      · intro hv
        simp [hany] at hv
        refine ⟨h, fun c hc => ?_, hv.2⟩
        rcases List.mem_map.1 hc with ⟨x, hx, rfl⟩
        exact hv.1 x hx
      · rintro ⟨-, hmem, -⟩
        exact absurd hmem h2

/-- Validation is insensitive to pre-lowering the word (spec §8: case
insensitivity), since `lower` is idempotent. -/
theorem is_valid_word_map_toLower (w : Word) (sq : Square) :
    is_valid_word (w.map Char.toLower) sq = is_valid_word w sq := by
  rw [Bool.eq_iff_iff, is_valid_word_parts, is_valid_word_parts, map_toLower_idem]
  constructor
  · rintro ⟨h1, h2⟩
    exact ⟨fun hw => h1 (by rw [hw]; rfl), h2⟩
  · rintro ⟨h1, h2⟩
    exact ⟨fun hw => h1 (List.map_eq_nil_iff.1 hw), h2⟩

/-! ### Indexing lemmas: playable words, original case, first-letter map -/

theorem mem_rawPlayable {nsq : Square} {ws : List Word} {w : Word} :
    w ∈ rawPlayable nsq ws ↔
      ∃ orig ∈ ws, orig ≠ [] ∧ w = orig.map Char.toLower ∧ is_valid_word w nsq = true := by
  unfold rawPlayable
  rw [List.mem_filterMap]
  constructor
  · rintro ⟨orig, ho, hsome⟩
    by_cases h1 : orig = []
    · rw [if_pos h1] at hsome; cases hsome
    · rw [if_neg h1] at hsome
      by_cases h2 : is_valid_word (orig.map Char.toLower) nsq
      · rw [if_pos h2] at hsome
        cases hsome
        exact ⟨orig, ho, h1, rfl, h2⟩
      · rw [if_neg h2] at hsome; cases hsome
  · rintro ⟨orig, ho, h1, rfl, h2⟩
    refine ⟨orig, ho, ?_⟩
    rw [if_neg h1]
    show (if is_valid_word (orig.map Char.toLower) nsq then some (orig.map Char.toLower)
      else none) = some (orig.map Char.toLower)
    rw [if_pos h2]

theorem mem_playableWords {nsq : Square} {ws : List Word} {w : Word} :
    w ∈ playableWords nsq ws ↔ w ∈ rawPlayable nsq ws := by
  unfold playableWords
  exact List.mem_insertionSort playSortLe

/-- The properties every entry of `playable_words` enjoys: nonempty,
already lowercase, valid against the normalized square, letters inside the
puzzle letter set. -/
theorem playable_props {sq : Square} {ws : List Word} {w : Word}
    (h : w ∈ playableWords (normalizeSquare sq) ws) :
    w ≠ [] ∧ w.map Char.toLower = w ∧ is_valid_word w (normalizeSquare sq) = true ∧
      ∀ c ∈ w, c ∈ allLetters sq := by
  rcases mem_rawPlayable.1 (mem_playableWords.1 h) with ⟨orig, _, h1, rfl, h2⟩
  have hlow : (orig.map Char.toLower).map Char.toLower = orig.map Char.toLower :=
    map_toLower_idem orig
  have hne : orig.map Char.toLower ≠ [] := fun hw => h1 (List.map_eq_nil_iff.1 hw)
  refine ⟨hne, hlow, h2, ?_⟩
  intro c hc
  rcases (is_valid_word_parts _ _).1 h2 with ⟨-, hmem, -⟩
  have := hmem c (by rw [hlow]; exact hc)
  rwa [normalizeSquare_idem, squareUnion_normalizeSquare] at this

theorem getLast?_cons_eq_or {α : Type} (a : α) (l : List α) :
    (a :: l).getLast? = l.getLast?.or (some a) := by
  induction l generalizing a with
  | nil => rfl
  | cons b l ih =>
    rw [List.getLast?_cons_cons, ih b]
    cases l.getLast? <;> rfl

theorem ocStep_apply (nsq : Square) (m : Word → Option Word) (word w : Word) :
    ocStep nsq m word w = if ocKeeps nsq w word then some word else m w := by
  unfold ocStep
  by_cases h1 : word = []
  · rw [if_pos h1, if_neg (fun hk => hk.1 h1)]
  · rw [if_neg h1]
    show (if is_valid_word (word.map Char.toLower) nsq = true then
      Function.update m (word.map Char.toLower) (some word) else m) w = _
    by_cases h2 : is_valid_word (word.map Char.toLower) nsq = true
    · rw [if_pos h2]
      by_cases h3 : word.map Char.toLower = w
      · rw [if_pos ⟨h1, h2, h3⟩, h3, Function.update_same]
      · rw [if_neg (fun hk => h3 hk.2.2), Function.update_noteq (Ne.symm h3)]
    · rw [if_neg h2, if_neg (fun hk => h2 hk.2.1)]

theorem originalCase_foldl (nsq : Square) (ws : List Word) (m : Word → Option Word)
    (w : Word) :
    (ws.foldl (ocStep nsq) m) w =
      ((ws.filter (fun o => decide (ocKeeps nsq w o))).getLast?).or (m w) := by
  induction ws generalizing m with
  | nil => rfl
  | cons o ws ih =>
    rw [List.foldl_cons, ih]
    simp only [List.filter_cons]
    by_cases hk : ocKeeps nsq w o
    · rw [decide_eq_true hk, if_pos rfl, getLast?_cons_eq_or, ocStep_apply, if_pos hk]
      cases (ws.filter (fun o => decide (ocKeeps nsq w o))).getLast? <;> rfl
    · rw [decide_eq_false hk, if_neg (by decide), ocStep_apply, if_neg hk]

/-- `original_case` records, for each normalized form, the LAST matching
dictionary entry (later assignments overwrite earlier ones). -/
theorem originalCase_eq_getLast (nsq : Square) (ws : List Word) (w : Word) :
    originalCase nsq ws w =
      (ws.filter (fun o => decide (ocKeeps nsq w o))).getLast? := by
  unfold originalCase
  rw [originalCase_foldl]
  cases (ws.filter (fun o => decide (ocKeeps nsq w o))).getLast? <;> rfl

/-- Whatever `original_case` returns lowercases back to its key. -/
theorem originalCase_some {nsq : Square} {ws : List Word} {w o : Word}
    (h : originalCase nsq ws w = some o) :
    o ≠ [] ∧ o.map Char.toLower = w ∧ is_valid_word (o.map Char.toLower) nsq = true := by
  rw [originalCase_eq_getLast] at h
  have hmem : o ∈ ws.filter (fun o => decide (ocKeeps nsq w o)) :=
    List.mem_of_getLast?_eq_some h
  rcases List.mem_filter.1 hmem with ⟨-, hP⟩
  rcases of_decide_eq_true hP with ⟨h1, h2, h3⟩
  exact ⟨h1, h3, h2⟩

theorem firstLetterMap_foldl (ps : List Word) (m : Char → List Word) (c : Char) :
    (ps.foldl flmStep m) c = m c ++ ps.filter (fun w => decide (w.head? = some c)) := by
  induction ps generalizing m with
  | nil => simp
  | cons w ps ih =>
    rw [List.foldl_cons, ih]
    simp only [List.filter_cons]
    cases w with
    | nil =>
      have hd : (decide (([] : Word).head? = some c)) = false := by simp
      rw [hd, if_neg (by decide)]
      rfl
    | cons a tl =>
      show (Function.update m a (m a ++ [a :: tl])) c ++ _ = _
      by_cases hc : a = c
      · subst hc
        have hd : (decide ((a :: tl).head? = some a)) = true := by simp
        rw [hd, if_pos rfl, Function.update_same, List.append_assoc]
        rfl
      · have hd : (decide ((a :: tl).head? = some c)) = false := by simp [hc]
        rw [hd, if_neg (by decide), Function.update_noteq (Ne.symm hc)]

/-- The first-letter index holds exactly the playable words beginning with
the key, in order. -/
theorem firstLetterMap_eq_filter (ps : List Word) (c : Char) :
    firstLetterMap ps c = ps.filter (fun w => decide (w.head? = some c)) := by
  unfold firstLetterMap
  rw [firstLetterMap_foldl]
  rfl

theorem mem_firstLetterMap {ps : List Word} {c : Char} {w : Word} :
    w ∈ firstLetterMap ps c ↔ w ∈ ps ∧ w.head? = some c := by
  rw [firstLetterMap_eq_filter, List.mem_filter]
  simp

/-! ### Used-letters lemmas -/

theorem unionLetters_cons (w : Word) (ws : List Word) :
    unionLetters (w :: ws) = w.toFinset ∪ unionLetters ws := rfl

theorem unionLetters_singleton (w : Word) : unionLetters [w] = w.toFinset := by
  rw [unionLetters_cons]
  show w.toFinset ∪ ∅ = w.toFinset
  exact Finset.union_empty _

theorem unionLetters_append (xs ys : List Word) :
    unionLetters (xs ++ ys) = unionLetters xs ∪ unionLetters ys := by
  induction xs with
  | nil => show unionLetters ys = ∅ ∪ unionLetters ys; rw [Finset.empty_union]
  | cons x xs ih =>
    rw [List.cons_append, unionLetters_cons, unionLetters_cons, ih, Finset.union_assoc]

/-- A lowercase-closed set of used letters is unchanged by the lowering pass
of `covers_all_letters`. -/
theorem covers_all_letters_of_subset {sq : Square} {ul : Finset Char}
    (hlow : ∀ c ∈ ul, c.toLower = c) (h : allLetters sq ⊆ ul) :
    covers_all_letters ul sq = true := by
  unfold covers_all_letters
  rw [decide_eq_true_iff, Finset.sdiff_eq_empty_iff_subset]
  intro c hc
  exact Finset.mem_image.2 ⟨c, h hc, hlow c (h hc)⟩


/-! ### Chain-state lemmas -/

theorem mem_unionLetters {ws : List Word} {c : Char} :
    c ∈ unionLetters ws ↔ ∃ w ∈ ws, c ∈ w := by
  induction ws with
  | nil => simp [unionLetters]
  | cons w ws ih =>
    rw [unionLetters_cons]
    simp [ih]

theorem playable_ne_nil {sq : Square} {ws : List Word} :
    ∀ w ∈ playableWords (normalizeSquare sq) ws, w ≠ [] :=
  fun _ hw => (playable_props hw).1

theorem seed_wf {playable : List Word} {w : Word} (hw : w ∈ playable) (_hne : w ≠ []) :
    StateWF playable ([w], w.toFinset) :=
  ⟨by simp, by simpa using hw, List.chain'_singleton w,
    (unionLetters_singleton w).symm⟩

theorem mem_expandState {flm : Char → List Word} {cw : List Word} {ul : Finset Char}
    {s : ChainState} (h : s ∈ expandState flm cw ul) :
    ∃ word ∈ flm ((cw.getLastD []).getLastD 'a'), s = (cw ++ [word], ul ∪ word.toFinset) := by
  unfold expandState at h
  rcases List.mem_map.1 h with ⟨wi, hwi, rfl⟩
  have h1 := List.mem_of_mem_take hwi
  have h2 := (List.mem_insertionSort prioLe).1 h1
  rcases List.mem_map.1 h2 with ⟨word, hword, rfl⟩
  exact ⟨word, hword, rfl⟩

theorem expand_wf {playable : List Word} {cw : List Word} {ul : Finset Char} {s : ChainState}
    (hpne : ∀ w ∈ playable, w ≠ []) (hwf : StateWF playable (cw, ul))
    (hs : s ∈ expandState (firstLetterMap playable) cw ul) :
    StateWF playable s := by
  rcases mem_expandState hs with ⟨word, hword, rfl⟩
  rcases hwf with ⟨-, hmem, hch, hul⟩
  rcases mem_firstLetterMap.1 hword with ⟨hwp, hhead⟩
  refine ⟨by simp, ?_, ?_, ?_⟩
  · intro w hw
    rcases List.mem_append.1 hw with hw | hw
    · exact hmem w hw
    · rw [List.mem_singleton.1 hw]
      exact hwp
  · rw [Chained, List.chain'_append]
    refine ⟨hch, List.chain'_singleton word, ?_⟩
    intro x hx y hy
    rw [List.head?_cons, Option.mem_some_iff] at hy
    subst hy
    rw [Option.mem_def] at hx
    have hxcw : x ∈ cw := List.mem_of_getLast?_eq_some hx
    have hxne : x ≠ [] := hpne x (hmem x hxcw)
    have hcwD : cw.getLastD [] = x := by
      rw [List.getLastD_eq_getLast?, hx]
      rfl
    rcases hz : x.getLast? with _ | z
    · exact absurd (List.getLast?_eq_none_iff.1 hz) hxne
    · have hxD : x.getLastD 'a' = z := by
        rw [List.getLastD_eq_getLast?, hz]
        rfl
      rw [hhead, hcwD, hxD]
  · show ul ∪ word.toFinset = unionLetters (cw ++ [word])
    have hul' : ul = unionLetters cw := hul
    rw [unionLetters_append, unionLetters_singleton, hul']

theorem unionLetters_lowerClosed {sq : Square} {ws : List Word} {cw : List Word}
    (hmem : ∀ w ∈ cw, w ∈ playableWords (normalizeSquare sq) ws) :
    ∀ c ∈ unionLetters cw, c.toLower = c := by
  intro c hc
  rcases mem_unionLetters.1 hc with ⟨w, hw, hcw⟩
  exact allLetters_lowerClosed ((playable_props (hmem w hw)).2.2.2 c hcw)

/-- Soundness of the search loop: whatever it reports as `min_solution` is a
nonempty chained sequence of playable words covering the whole puzzle. -/
theorem searchLoop_sound (sq : Square) (ws : List Word) :
    ∀ (fuel : Nat) (q : List ChainState) (v : List StateKey) (best : Option (List Word)),
      (∀ s ∈ q, StateWF (playableWords (normalizeSquare sq) ws) s) →
      (∀ sol0, best = some sol0 → SolOK sq ws sol0) →
      ∀ sol,
        searchLoop sq (allLetters sq)
          (firstLetterMap (playableWords (normalizeSquare sq) ws)) fuel q v best = some sol →
        SolOK sq ws sol := by
  intro fuel
  induction fuel with
  | zero =>
    intro q v best hq hb sol h
    exact hb sol h
  | succ fuel ih =>
    intro q v best hq hb sol h
    cases q with
    | nil => exact hb sol h
    | cons s rest =>
      obtain ⟨cw, ul⟩ := s
      have hwf : StateWF (playableWords (normalizeSquare sq) ws) (cw, ul) :=
        hq _ (List.mem_cons_self _ _)
      have hrest : ∀ s ∈ rest, StateWF (playableWords (normalizeSquare sq) ws) s :=
        fun s hs => hq s (List.mem_cons_of_mem _ hs)
      rw [searchLoop] at h
      split_ifs at h with h1 h2 h3 h4 h5
      · exact ih rest v best hrest hb sol h
      · exact ih rest v best hrest hb sol h
      · cases h
        rcases hwf with ⟨hne, hmem, hch, hul⟩
        exact ⟨hne, hmem, hch, by rw [← hul]; exact h3⟩
      · refine ih rest _ (some cw) hrest ?_ sol h
        intro sol0 h0
        cases h0
        rcases hwf with ⟨hne, hmem, hch, hul⟩
        exact ⟨hne, hmem, hch, by rw [← hul]; exact h3⟩
      · exact ih rest _ best hrest hb sol h
      · exact ih rest _ best hrest hb sol h
      · refine ih _ _ best ?_ hb sol h
        intro s hs
        rcases List.mem_append.1 hs with hs | hs
        · exact hrest s hs
        · exact expand_wf playable_ne_nil hwf hs

/-! ### From the loop back to `find_shortest_solution` -/

theorem searchLoop_nil (sq : Square) (allP : Finset Char) (flm : Char → List Word)
    (fuel : Nat) (v : List StateKey) (best : Option (List Word)) :
    searchLoop sq allP flm fuel [] v best = best := by
  cases fuel with
  | zero => rfl
  | succ fuel => rfl

theorem solveCore_of_playable_nil {sq : Square} {ws : List Word}
    (h : playableWords (normalizeSquare sq) ws = []) : solveCore sq ws = none := by
  simp only [solveCore, h, List.map_nil]
  exact searchLoop_nil _ _ _ _ _ _

theorem solveCore_sound {sq : Square} {ws : List Word} {sol : List Word}
    (h : solveCore sq ws = some sol) : SolOK sq ws sol := by
  refine searchLoop_sound sq ws max_iterations
    ((playableWords (normalizeSquare sq) ws).map (fun w => ([w], w.toFinset))) [] none
    ?_ ?_ sol h
  · intro s hs
    rcases List.mem_map.1 hs with ⟨w, hw, rfl⟩
    exact seed_wf hw (playable_ne_nil w hw)
  · intro sol0 h0
    cases h0

theorem find_shortest_eq_of_core_some {sq : Square} {ws : List Word} {sol : List Word}
    (hcore : solveCore sq ws = some sol) :
    find_shortest_solution sq ws =
      if sol.all (fun w => ((originalCase (normalizeSquare sq) ws) w).isSome)
      then sol.map (fun w => ((originalCase (normalizeSquare sq) ws) w).getD w)
      else sol := by
  have hply : playableWords (normalizeSquare sq) ws ≠ [] := by
    intro h
    rw [solveCore_of_playable_nil h] at hcore
    cases hcore
  have hws : ws ≠ [] := by
    intro h
    subst h
    exact hply rfl
  simp only [find_shortest_solution, hcore]
  rw [if_neg hws, if_neg hply]

theorem find_shortest_eq_of_core_none {sq : Square} {ws : List Word}
    (hcore : solveCore sq ws = none)
    (hply : playableWords (normalizeSquare sq) ws ≠ []) :
    find_shortest_solution sq ws =
      match (List.insertionSort (fallbackLe (allLetters sq))
          (playableWords (normalizeSquare sq) ws)).getLast? with
      | some bw => [((originalCase (normalizeSquare sq) ws) bw).getD bw]
      | none => [] := by
  have hws : ws ≠ [] := by
    intro h
    subst h
    exact hply rfl
  simp only [find_shortest_solution, hcore]
  rw [if_neg hws, if_neg hply]

theorem is_valid_word_normalizeSquare (w : Word) (sq : Square) :
    is_valid_word w (normalizeSquare sq) = is_valid_word w sq := by
  unfold is_valid_word
  rw [normalizeSquare_idem]

/-! ### Claim theorems -/

/-- C1: for every square (each letter on exactly one side) and dictionary,
if the search records a complete (non-partial) solution, then the returned
result is nonempty, each returned word is individually playable on the
square, adjacent returned words chain case-insensitively (last letter of
the earlier equals first letter of the later), and the union of the
returned words' lowercased letters covers every letter of the square. -/
theorem c1_complete_result_invariants (square : Square) (dictionary : List Word)
    (_hunamb : UnambiguousSquare square) (sol : List Word)
    (hcore : solveCore square dictionary = some sol) :
    find_shortest_solution square dictionary ≠ [] ∧
    (∀ w ∈ find_shortest_solution square dictionary, is_valid_word w square = true) ∧
    List.Chain' (fun a b => (a.map Char.toLower).getLast? = (b.map Char.toLower).head?)
      (find_shortest_solution square dictionary) ∧
    allLetters square ⊆
      unionLetters ((find_shortest_solution square dictionary).map
        (fun w => w.map Char.toLower)) := by
  have hok : SolOK square dictionary sol := solveCore_sound hcore
  have hres := find_shortest_eq_of_core_some hcore
  have hg : ∃ g : Word → Word, find_shortest_solution square dictionary = sol.map g ∧
      ∀ w ∈ sol, (g w).map Char.toLower = w := by
    by_cases hall :
        sol.all (fun w => ((originalCase (normalizeSquare square) dictionary) w).isSome) = true
    · refine ⟨fun w => ((originalCase (normalizeSquare square) dictionary) w).getD w,
        by rw [hres, if_pos hall], ?_⟩
      intro w hw
      rcases ho : originalCase (normalizeSquare square) dictionary w with _ | o
      · have hsome := List.all_eq_true.1 hall w hw
        rw [ho] at hsome
        cases hsome
      · show ((originalCase (normalizeSquare square) dictionary w).getD w).map Char.toLower = w
        rw [ho]
        exact (originalCase_some ho).2.1
    · refine ⟨id, by rw [hres, if_neg hall, List.map_id], ?_⟩
      intro w hw
      exact (playable_props (hok.2.1 w hw)).2.1
  rcases hg with ⟨g, hgr, hgw⟩
  have hmaplow :
      (find_shortest_solution square dictionary).map (fun w => w.map Char.toLower) = sol := by
    rw [hgr, List.map_map]
    have hpt : ∀ w ∈ sol, ((fun w => w.map Char.toLower) ∘ g) w = id w := fun w hw => hgw w hw
    rw [List.map_congr_left hpt, List.map_id]
  refine ⟨?_, ?_, ?_, ?_⟩
  · rw [hgr]
    intro hnil
    exact hok.1 (by simpa using hnil)
  · intro w hw
    rw [hgr] at hw
    rcases List.mem_map.1 hw with ⟨w', hw', rfl⟩
    rw [← is_valid_word_map_toLower, hgw w' hw', ← is_valid_word_normalizeSquare]
    exact (playable_props (hok.2.1 w' hw')).2.2.1
  · have hch : List.Chain' (fun a b => a.getLast? = b.head?)
        ((find_shortest_solution square dictionary).map (fun w => w.map Char.toLower)) := by
      rw [hmaplow]
      exact hok.2.2.1
    exact (List.chain'_map _).1 hch
  · rw [hmaplow]
    exact hok.2.2.2

/-- Witness for C1 at the spec's Scenario A square and dictionary. -/
theorem c1_complete_result_invariants_witness :
    UnambiguousSquare sampleSquare ∧
    solveCore sampleSquare [['A','G','B','H','C','I'], ['I','J','D','K','E','L','F']] =
      some [['a','g','b','h','c','i'], ['i','j','d','k','e','l','f']] ∧
    (find_shortest_solution sampleSquare
        [['A','G','B','H','C','I'], ['I','J','D','K','E','L','F']] ≠ [] ∧
      (∀ w ∈ find_shortest_solution sampleSquare
          [['A','G','B','H','C','I'], ['I','J','D','K','E','L','F']],
        is_valid_word w sampleSquare = true) ∧
      List.Chain' (fun a b => (a.map Char.toLower).getLast? = (b.map Char.toLower).head?)
        (find_shortest_solution sampleSquare
          [['A','G','B','H','C','I'], ['I','J','D','K','E','L','F']]) ∧
      allLetters sampleSquare ⊆
        unionLetters ((find_shortest_solution sampleSquare
            [['A','G','B','H','C','I'], ['I','J','D','K','E','L','F']]).map
          (fun w => w.map Char.toLower))) :=
  ⟨by decide, by decide,
    c1_complete_result_invariants sampleSquare
      [['A','G','B','H','C','I'], ['I','J','D','K','E','L','F']] (by decide)
      [['a','g','b','h','c','i'], ['i','j','d','k','e','l','f']] (by decide)⟩

/-- C9: every state placed on the queue has `used_letters` equal to the
union of the distinct-letter sets of its chain words: the seeded states
(lines 210-212) satisfy it, and every enqueue performed by the expansion
step (lines 276-280) preserves it. -/
theorem c9_used_letters_is_union_of_chain (square : Square) (dictionary : List Word) :
    (∀ w ∈ playableWords (normalizeSquare square) dictionary,
      (([w], w.toFinset) : ChainState).2 = unionLetters (([w], w.toFinset) : ChainState).1) ∧
    (∀ (cw : List Word) (ul : Finset Char), ul = unionLetters cw →
      ∀ s ∈ expandState
          (firstLetterMap (playableWords (normalizeSquare square) dictionary)) cw ul,
        s.2 = unionLetters s.1) := by
  constructor
  · intro w _
    exact (unionLetters_singleton w).symm
  · intro cw ul hul s hs
    rcases mem_expandState hs with ⟨word, _, rfl⟩
    show ul ∪ word.toFinset = unionLetters (cw ++ [word])
    rw [unionLetters_append, unionLetters_singleton, hul]

/-- Witness for C9: a seeded and an expanded state of the Scenario A search. -/
theorem c9_used_letters_is_union_of_chain_witness :
    ((([['a','g','b','h','c','i']],
        (['a','g','b','h','c','i'] : Word).toFinset) : ChainState).2 =
      unionLetters [['a','g','b','h','c','i']]) ∧
    ((([['a','g','b','h','c','i'], ['i','j','d','k','e','l','f']],
        (['a','g','b','h','c','i'] : Word).toFinset ∪
          (['i','j','d','k','e','l','f'] : Word).toFinset) : ChainState).2 =
      unionLetters [['a','g','b','h','c','i'], ['i','j','d','k','e','l','f']]) :=
  ⟨(c9_used_letters_is_union_of_chain sampleSquare
      [['A','G','B','H','C','I'], ['I','J','D','K','E','L','F']]).1
      ['a','g','b','h','c','i'] (by decide),
   (c9_used_letters_is_union_of_chain sampleSquare
      [['A','G','B','H','C','I'], ['I','J','D','K','E','L','F']]).2
      [['a','g','b','h','c','i']] (['a','g','b','h','c','i'] : Word).toFinset (by decide)
      _ (by decide)⟩

/-- C4 counterexample: with dictionary `["AB", "ab"]` both entries normalize
to `ab` and are playable, yet the recorded spelling — and the returned
casing — is the LAST entry `ab`, not the first `AB` as the claim states. -/
theorem c4_counterexample :
    is_valid_word ['A','B'] sqPartial = true ∧
    is_valid_word ['a','b'] sqPartial = true ∧
    (['A','B'] : Word).map Char.toLower = ['a','b'] ∧
    originalCase (normalizeSquare sqPartial) [['A','B'], ['a','b']] ['a','b'] =
      some ['a','b'] ∧
    find_shortest_solution sqPartial [['A','B'], ['a','b']] = [['a','b']] ∧
    (['a','b'] : Word) ≠ (['A','B'] : Word) := by decide

/-- C4 amended: the original-case spelling recorded for a normalized form is
the LAST matching spelling encountered in dictionary order (each assignment
`original_case[word_lower] = word` overwrites the previous one). -/
theorem c4_original_case_is_last_write (square : Square) (dictionary : List Word)
    (w : Word) :
    originalCase (normalizeSquare square) dictionary w =
      (dictionary.filter
        (fun o => decide (ocKeeps (normalizeSquare square) w o))).getLast? :=
  originalCase_eq_getLast (normalizeSquare square) dictionary w

/-- C5 counterexample: the indexing loop only skips EMPTY entries; the
single-letter entry `a` is playable and is in fact returned as the fallback
result. -/
theorem c5_counterexample :
    (['a'] : Word).length = 1 ∧
    is_valid_word ['a'] sqSingle = true ∧
    (['a'] : Word) ∈ playableWords (normalizeSquare sqSingle) [['a']] ∧
    find_shortest_solution sqSingle [['a']] = [['a']] := by decide

theorem ocGetD_ne_nil {sq : Square} {ws : List Word} {w : Word} (hw : w ≠ []) :
    ((originalCase (normalizeSquare sq) ws w).getD w) ≠ [] := by
  rcases ho : originalCase (normalizeSquare sq) ws w with _ | o
  · simpa using hw
  · simp only [Option.getD_some]
    exact (originalCase_some ho).1

/-- C5 amended: only EMPTY dictionary entries are skipped during indexing —
no empty entry ever becomes playable and no returned result contains an
empty word.  (Single-letter entries are NOT rejected; see the
counterexample.) -/
theorem c5_only_empty_entries_are_skipped (square : Square) (dictionary : List Word) :
    (∀ w ∈ playableWords (normalizeSquare square) dictionary, w ≠ []) ∧
    (∀ w ∈ find_shortest_solution square dictionary, w ≠ []) := by
  refine ⟨playable_ne_nil, ?_⟩
  intro w hw
  by_cases hws : dictionary = []
  · subst hws
    rw [show find_shortest_solution square [] = [] from rfl] at hw
    cases hw
  · by_cases hply : playableWords (normalizeSquare square) dictionary = []
    · have hempty : find_shortest_solution square dictionary = [] := by
        simp only [find_shortest_solution]
        rw [if_neg hws, if_pos hply]
      rw [hempty] at hw
      cases hw
    · rcases hcore : solveCore square dictionary with _ | sol
      · rw [find_shortest_eq_of_core_none hcore hply] at hw
        rcases hlast : (List.insertionSort (fallbackLe (allLetters square))
            (playableWords (normalizeSquare square) dictionary)).getLast? with _ | bw
        · rw [hlast] at hw
          cases hw
        · rw [hlast] at hw
          have hwbw := List.mem_singleton.1 hw
          subst hwbw
          have hbw : bw ∈ playableWords (normalizeSquare square) dictionary :=
            (List.mem_insertionSort _).1 (List.mem_of_getLast?_eq_some hlast)
          exact ocGetD_ne_nil (playable_ne_nil bw hbw)
      · rw [find_shortest_eq_of_core_some hcore] at hw
        have hsol := solveCore_sound hcore
        by_cases hall : sol.all
            (fun w => ((originalCase (normalizeSquare square) dictionary) w).isSome) = true
        · rw [if_pos hall] at hw
          rcases List.mem_map.1 hw with ⟨w', hw', rfl⟩
          exact ocGetD_ne_nil (playable_ne_nil w' (hsol.2.1 w' hw'))
        · rw [if_neg hall] at hw
          exact playable_ne_nil w (hsol.2.1 w hw)

/-- Witness for the amended C5 at a concrete fallback result. -/
theorem c5_only_empty_entries_are_skipped_witness : (['a'] : Word) ≠ [] :=
  (c5_only_empty_entries_are_skipped sqSingle [['a']]).2 ['a'] (by decide)

theorem letterSides_inner (s : String) (ls : List Char) (m : Char → Option String)
    (c : Char) :
    (ls.foldl (fun m ch => Function.update m ch (some s)) m) c =
      if c ∈ ls then some s else m c := by
  induction ls generalizing m with
  | nil => simp
  | cons a tl ih =>
    rw [List.foldl_cons, ih]
    by_cases hc : c ∈ tl
    · rw [if_pos hc, if_pos (List.mem_cons_of_mem a hc)]
    · rw [if_neg hc]
      by_cases hca : c = a
      · subst hca
        rw [if_pos (List.mem_cons_self c tl), Function.update_same]
      · rw [if_neg (by simp [hca, hc]), Function.update_noteq hca]

theorem letterSides_foldl (sq : Square) (m : Char → Option String) (c : Char) :
    (sq.foldl (fun m p => p.2.foldl (fun m ch => Function.update m ch (some p.1)) m) m) c =
      (((sq.filter (fun p => decide (c ∈ p.2))).getLast?).map Prod.fst).or (m c) := by
  induction sq generalizing m with
  | nil => rfl
  | cons p sq ih =>
    rw [List.foldl_cons, ih]
    simp only [List.filter_cons]
    by_cases hc : c ∈ p.2
    · rw [letterSides_inner, if_pos hc, decide_eq_true hc, if_pos rfl, getLast?_cons_eq_or]
      cases (sq.filter (fun p => decide (c ∈ p.2))).getLast? <;> rfl
    · rw [letterSides_inner, if_neg hc, decide_eq_false hc,
        if_neg (show ¬(false = true) by decide)]

/-- The `letter_sides` map sends a letter to the LAST side whose letter set
contains it (and to `none` when no side does). -/
theorem letterSides_eq_getLast (sq : Square) (c : Char) :
    letterSides sq c = ((sq.filter (fun p => decide (c ∈ p.2))).getLast?).map Prod.fst := by
  unfold letterSides
  rw [letterSides_foldl]
  cases ((sq.filter (fun p => decide (c ∈ p.2))).getLast?).map Prod.fst <;> rfl

/-- C7 counterexample: `sqAmbig` lists letter `a` on both `top` and
`bottom`, yet the solver raises no validation error: it silently resolves
`a` to the last side (`bottom`) — making `ca` invalid even though reading
`a` as `top` would allow it — and happily returns a result. -/
theorem c7_counterexample :
    ¬ UnambiguousSquare sqAmbig ∧
    find_shortest_solution sqAmbig [['a','b']] = [['a','b']] ∧
    letterSides (normalizeSquare sqAmbig) 'a' = some "bottom" ∧
    is_valid_word ['c','a'] sqAmbig = false := by decide

/-- C7 amended: an arrangement with a letter on more than one side is NOT
rejected.  The solver proceeds: its letter-to-side map resolves every letter
to the side occurring last among the sides that list it. -/
theorem c7_ambiguity_silently_resolved (square : Square) (c : Char) :
    letterSides (normalizeSquare square) c =
      (((normalizeSquare square).filter
        (fun p => decide (c ∈ p.2))).getLast?).map Prod.fst :=
  letterSides_eq_getLast (normalizeSquare square) c

/-- C8: an absent (`None`), non-list, empty, or non-string-coercible
dictionary argument makes `find_shortest_solution` return `[]`; no
exception escapes (the embedding is total, and the `except` path of
line 137 is the `[]` return). -/
theorem c8_invalid_dictionary_yields_empty (square : Square) (d : DictArg)
    (h : d = DictArg.noneArg ∨ d = DictArg.notAList ∨ d = DictArg.listArg [] ∨
      ∃ entries, d = DictArg.listArg entries ∧ PyEntry.nonCoercible ∈ entries) :
    find_shortest_solution_arg square d = [] := by
  rcases h with rfl | rfl | rfl | ⟨entries, rfl, hent⟩
  · rfl
  · rfl
  · rfl
  · cases entries with
    | nil => rfl
    | cons e es =>
      show (if (e :: es).any (fun x => decide (x = PyEntry.nonCoercible)) = true then []
        else find_shortest_solution square ((e :: es).map PyEntry.getWord)) = []
      rw [if_pos (List.any_eq_true.2 ⟨PyEntry.nonCoercible, hent, by simp⟩)]

/-- Witness for C8 at each kind of invalid dictionary argument. -/
theorem c8_invalid_dictionary_yields_empty_witness :
    find_shortest_solution_arg sampleSquare
      (DictArg.listArg [PyEntry.str ['a'], PyEntry.nonCoercible]) = [] :=
  c8_invalid_dictionary_yields_empty sampleSquare
    (DictArg.listArg [PyEntry.str ['a'], PyEntry.nonCoercible])
    (Or.inr (Or.inr (Or.inr ⟨[PyEntry.str ['a'], PyEntry.nonCoercible], rfl, by simp⟩)))

/-- C10: a call of `find_shortest_solution` leaves the square and the
dictionary exactly as they were, and its result is the pure function of the
two values. -/
theorem c10_inputs_left_unchanged (st : SolverInput) :
    (find_shortest_solution_stateful st).2 = st ∧
    (find_shortest_solution_stateful st).1 =
      find_shortest_solution st.square st.dictionary :=
  ⟨rfl, rfl⟩

theorem fallbackLe_refl (allP : Finset Char) (a : Word) : fallbackLe allP a a :=
  Or.inr ⟨rfl, le_refl _⟩

theorem sorted_getLast?_max {α : Type} {r : α → α → Prop} (hrefl : ∀ a, r a a)
    {l : List α} (hs : List.Pairwise r l) {p : α} (hl : l.getLast? = some p) :
    ∀ x ∈ l, r x p := by
  induction l with
  | nil => intro x hx; cases hx
  | cons a l ih =>
    rw [getLast?_cons_eq_or] at hl
    intro x hx
    rcases List.mem_cons.1 hx with rfl | hx
    · rcases hll : l.getLast? with _ | q
      · rw [hll] at hl
        cases hl
        exact hrefl _
      · rw [hll] at hl
        cases hl
        exact (List.pairwise_cons.1 hs).1 p (List.mem_of_getLast?_eq_some hll)
    · rcases hll : l.getLast? with _ | q
      · rw [List.getLast?_eq_none_iff.1 hll] at hx
        cases hx
      · rw [hll] at hl
        cases hl
        exact ih (List.pairwise_cons.1 hs).2 hll x hx

/-- C3 amended: when playable words exist but the search records no covering
chain, the result is exactly one word — a playable word of maximum overlap
with the puzzle letters, ties broken in favour of the SHORTER word (the
fallback sort key is `(overlap, -len)` ascending and the LAST element is
taken), returned in its recorded original casing. -/
theorem c3_fallback_max_overlap_shorter_preferred (square : Square)
    (dictionary : List Word)
    (hply : playableWords (normalizeSquare square) dictionary ≠ [])
    (hcore : solveCore square dictionary = none) :
    ∃ p ∈ playableWords (normalizeSquare square) dictionary,
      find_shortest_solution square dictionary =
        [((originalCase (normalizeSquare square) dictionary) p).getD p] ∧
      ∀ q ∈ playableWords (normalizeSquare square) dictionary,
        fallbackLe (allLetters square) q p := by
  have hperm := List.perm_insertionSort (fallbackLe (allLetters square))
    (playableWords (normalizeSquare square) dictionary)
  have hbne : List.insertionSort (fallbackLe (allLetters square))
      (playableWords (normalizeSquare square) dictionary) ≠ [] := by
    intro hn
    rw [hn] at hperm
    exact hply hperm.symm.eq_nil
  rcases hlast : (List.insertionSort (fallbackLe (allLetters square))
      (playableWords (normalizeSquare square) dictionary)).getLast? with _ | p
  · exact absurd (List.getLast?_eq_none_iff.1 hlast) hbne
  · refine ⟨p, (List.mem_insertionSort _).1 (List.mem_of_getLast?_eq_some hlast), ?_, ?_⟩
    · rw [find_shortest_eq_of_core_none hcore hply, hlast]
    · intro q hq
      exact sorted_getLast?_max (fallbackLe_refl (allLetters square))
        (List.sorted_insertionSort _ _) hlast q ((List.mem_insertionSort _).2 hq)

/-- Witness for the amended C3: dictionary `["ab", "aba"]` on a square whose
letters `x`, `y` appear in no word, so only the fallback can fire. -/
theorem c3_fallback_witness :
    ∃ p ∈ playableWords (normalizeSquare sqPartial) [['a','b'], ['a','b','a']],
      find_shortest_solution sqPartial [['a','b'], ['a','b','a']] =
        [((originalCase (normalizeSquare sqPartial) [['a','b'], ['a','b','a']]) p).getD p] ∧
      ∀ q ∈ playableWords (normalizeSquare sqPartial) [['a','b'], ['a','b','a']],
        fallbackLe (allLetters sqPartial) q p :=
  c3_fallback_max_overlap_shorter_preferred sqPartial [['a','b'], ['a','b','a']]
    (by decide) (by decide)

/-- C3 counterexample: `ab` and `aba` have the same overlap (2 letters) with
the puzzle, `aba` is longer, yet the fallback returns `ab` — the tie is
broken toward the SHORTER word, contradicting the claim's "longer word is
preferred". -/
theorem c3_counterexample :
    solveCore sqPartial [['a','b'], ['a','b','a']] = none ∧
    (['a','b','a'] : Word) ∈ playableWords (normalizeSquare sqPartial)
      [['a','b'], ['a','b','a']] ∧
    ((['a','b','a'] : Word).toFinset ∩ allLetters sqPartial).card =
      ((['a','b'] : Word).toFinset ∩ allLetters sqPartial).card ∧
    (['a','b'] : Word).length < (['a','b','a'] : Word).length ∧
    find_shortest_solution sqPartial [['a','b'], ['a','b','a']] = [['a','b']] := by decide

/-! ### The validity predicate as a specification (C6) -/

theorem consecDiff_iff_chain (ls : Char → Option String) :
    ∀ (w : Word), consecDiff ls w = true ↔
      List.Chain' (fun a b => ¬ (ls a = ls b)) w
  | [] => by simp [consecDiff]
  | [a] => by simp [consecDiff]
  | a :: b :: w => by
    rw [show consecDiff ls (a :: b :: w) =
        (!(decide (ls a = ls b)) && consecDiff ls (b :: w)) from rfl,
      List.chain'_cons, Bool.and_eq_true, consecDiff_iff_chain ls (b :: w)]
    simp

theorem chain'_imp_of_mem {α : Type} {R S : α → α → Prop} :
    ∀ {l : List α}, (∀ a ∈ l, ∀ b ∈ l, R a b → S a b) →
      List.Chain' R l → List.Chain' S l
  | [], _, _ => List.chain'_nil
  | [a], _, _ => List.chain'_singleton a
  | a :: b :: l, h, hch => by
    rw [List.chain'_cons] at hch ⊢
    refine ⟨h a (List.mem_cons_self a _) b
      (List.mem_cons_of_mem a (List.mem_cons_self b _)) hch.1, ?_⟩
    exact chain'_imp_of_mem
      (fun x hx y hy => h x (List.mem_cons_of_mem a hx) y (List.mem_cons_of_mem a hy))
      hch.2

/-- A letter of the (normalized) square is mapped by `letter_sides` to the
name of some side containing it. -/
theorem letterSides_mem {sq : Square} {c : Char} (h : c ∈ squareUnion sq) :
    ∃ p ∈ sq, letterSides sq c = some p.1 ∧ c ∈ p.2 := by
  rcases mem_squareUnion.1 h with ⟨p, hp, hc⟩
  have hne : sq.filter (fun p => decide (c ∈ p.2)) ≠ [] := by
    intro hf
    have hmem : p ∈ sq.filter (fun p => decide (c ∈ p.2)) :=
      List.mem_filter.2 ⟨hp, decide_eq_true hc⟩
    rw [hf] at hmem
    cases hmem
  rcases hlast : (sq.filter (fun p => decide (c ∈ p.2))).getLast? with _ | q
  · exact absurd (List.getLast?_eq_none_iff.1 hlast) hne
  · have hq := List.mem_of_getLast?_eq_some hlast
    rcases List.mem_filter.1 hq with ⟨hqsq, hqc⟩
    refine ⟨q, hqsq, ?_, of_decide_eq_true hqc⟩
    rw [letterSides_eq_getLast, hlast]
    rfl

theorem nodup_keys_inj {sq : Square} (h : (sq.map Prod.fst).Nodup)
    {p q : String × List Char} (hp : p ∈ normalizeSquare sq)
    (hq : q ∈ normalizeSquare sq) (hname : p.1 = q.1) : p = q := by
  have h' : ((normalizeSquare sq).map Prod.fst).Nodup := by
    unfold normalizeSquare
    rw [List.map_map]
    exact h
  exact List.inj_on_of_nodup_map h' hp hq hname

theorem sameSide_ls_eq {square : Square} (hunamb : UnambiguousSquare square) {a b : Char}
    (hss : SameSide square a b) :
    letterSides (normalizeSquare square) a = letterSides (normalizeSquare square) b := by
  rcases hss with ⟨r, hr, hra, hrb⟩
  have ha : a ∈ squareUnion (normalizeSquare square) := mem_squareUnion.2 ⟨r, hr, hra⟩
  have hb : b ∈ squareUnion (normalizeSquare square) := mem_squareUnion.2 ⟨r, hr, hrb⟩
  rcases letterSides_mem ha with ⟨p, hp, hpa, hpc⟩
  rcases letterSides_mem hb with ⟨q, hq, hqb, hqc⟩
  rw [hpa, hqb, hunamb p hp r hr a hpc hra, hunamb q hq r hr b hqc hrb]

theorem ls_eq_sameSide {square : Square} (hkeys : (square.map Prod.fst).Nodup)
    {a b : Char} (ha : a ∈ squareUnion (normalizeSquare square))
    (hb : b ∈ squareUnion (normalizeSquare square))
    (heq : letterSides (normalizeSquare square) a = letterSides (normalizeSquare square) b) :
    SameSide square a b := by
  rcases letterSides_mem ha with ⟨p, hp, hpa, hpc⟩
  rcases letterSides_mem hb with ⟨q, hq, hqb, hqc⟩
  rw [hpa, hqb] at heq
  have hpq : p = q := nodup_keys_inj hkeys hp hq (Option.some.inj heq)
  exact ⟨p, hp, hpc, by rw [hpq]; exact hqc⟩

/-- C6: for a square whose (dict-unique) sides give each letter exactly one
side, `is_valid_word` returns `true` exactly when the word is nonempty,
every lowercased letter lies in the union of the sides, and no two
consecutive lowercased letters lie on a common side. -/
theorem c6_is_valid_word_characterization (word : Word) (square : Square)
    (hkeys : (square.map Prod.fst).Nodup) (hunamb : UnambiguousSquare square) :
    is_valid_word word square = true ↔
      word ≠ [] ∧ (∀ c ∈ word, Char.toLower c ∈ allLetters square) ∧
        List.Chain' (fun a b => ¬ SameSide square a b) (word.map Char.toLower) := by
  rw [is_valid_word_parts]
  constructor
  · rintro ⟨hne, hmem, hcons⟩
    refine ⟨hne, ?_, ?_⟩
    · intro c hc
      rw [← squareUnion_normalizeSquare]
      exact hmem _ (List.mem_map_of_mem _ hc)
    · have hch := (consecDiff_iff_chain _ _).1 hcons
      refine chain'_imp_of_mem (fun x _ y _ hxy => ?_) hch
      exact fun hss => hxy (sameSide_ls_eq hunamb hss)
  · rintro ⟨hne, hmem, hch⟩
    have hmem' : ∀ c ∈ word.map Char.toLower, c ∈ squareUnion (normalizeSquare square) := by
      intro c hc
      rcases List.mem_map.1 hc with ⟨x, hx, rfl⟩
      rw [squareUnion_normalizeSquare]
      exact hmem x hx
    refine ⟨hne, hmem', ?_⟩
    rw [consecDiff_iff_chain]
    refine chain'_imp_of_mem (fun x hx y hy hnss => ?_) hch
    exact fun heq => hnss (ls_eq_sameSide hkeys (hmem' x hx) (hmem' y hy) heq)

/-- Witness for C6 on the repository's own test square and word. -/
theorem c6_is_valid_word_characterization_witness :
    (sampleSquare.map Prod.fst).Nodup ∧ UnambiguousSquare sampleSquare ∧
    (is_valid_word ['C','H','J','C'] sampleSquare = true ↔
      (['C','H','J','C'] : Word) ≠ [] ∧
        (∀ c ∈ (['C','H','J','C'] : Word), Char.toLower c ∈ allLetters sampleSquare) ∧
        List.Chain' (fun a b => ¬ SameSide sampleSquare a b)
          ((['C','H','J','C'] : Word).map Char.toLower)) :=
  ⟨by decide, by decide,
    c6_is_valid_word_characterization ['C','H','J','C'] sampleSquare (by decide) (by decide)⟩

/-! ### The two-word-chain guarantee (C2) -/

theorem keyOf_inj_of_wf {playable : List Word} {s t : ChainState}
    (hs : StateWF playable s) (ht : StateWF playable t) (h : keyOf s = keyOf t) :
    s = t := by
  obtain ⟨cw, ul⟩ := s
  obtain ⟨cw', ul'⟩ := t
  have h1 : cw = cw' := congrArg Prod.fst h
  subst h1
  rw [Prod.mk.injEq]
  exact ⟨rfl, (hs.2.2.2).trans (ht.2.2.2).symm⟩

theorem expandState_chain_length {flm : Char → List Word} {cw : List Word}
    {ul : Finset Char} : ∀ s ∈ expandState flm cw ul, s.1.length = cw.length + 1 := by
  intro s hs
  rcases mem_expandState hs with ⟨word, _, rfl⟩
  simp

theorem covers_of_wf_subset {square : Square} {ws : List Word} {s : ChainState}
    (hwf : StateWF (playableWords (normalizeSquare square) ws) s)
    (hsub : allLetters square ⊆ s.2) : covers_all_letters s.2 square = true := by
  refine covers_all_letters_of_subset ?_ hsub
  intro c hc
  rw [hwf.2.2.2] at hc
  exact unionLetters_lowerClosed hwf.2.1 c hc

theorem pairwise_head_rel {α : Type} {r : α → α → Prop} {c : α} {tail : List α}
    (h : List.Pairwise r (c :: tail)) : ∀ x ∈ c :: tail, x = c ∨ r c x := by
  intro x hx
  rcases List.mem_cons.1 hx with rfl | hx
  · exact Or.inl rfl
  · exact Or.inr ((List.pairwise_cons.1 h).1 x hx)

theorem playable_toFinset_subset {square : Square} {ws : List Word} {w : Word}
    (h : w ∈ playableWords (normalizeSquare square) ws) :
    w.toFinset ⊆ allLetters square := by
  intro c hc
  exact (playable_props h).2.2.2 c (List.mem_toFinset.1 hc)

/-- Expanding the seed of `w1` puts, at the very head of the enqueued
children, a two-word state that covers the whole puzzle: the candidates are
sorted by newly-covered-letter count first, `w2` witnesses that the maximum
count equals the number of still-missing letters, and any candidate reaching
that maximum covers everything. -/
theorem expand_seed_has_hot (square : Square) (ws : List Word) (w1 w2 : Word)
    (hw1 : w1 ∈ playableWords (normalizeSquare square) ws)
    (hw2 : w2 ∈ playableWords (normalizeSquare square) ws)
    (hchain : w2.head? = w1.getLast?)
    (hcover : allLetters square ⊆ w1.toFinset ∪ w2.toFinset) :
    ∃ u ctail,
      expandState (firstLetterMap (playableWords (normalizeSquare square) ws))
          [w1] w1.toFinset =
        ([w1, u], w1.toFinset ∪ u.toFinset) :: ctail ∧
      u ∈ playableWords (normalizeSquare square) ws ∧
      allLetters square ⊆ w1.toFinset ∪ u.toFinset := by
  have hw1ne : w1 ≠ [] := playable_ne_nil w1 hw1
  rcases hz : w1.getLast? with _ | z
  · exact absurd (List.getLast?_eq_none_iff.1 hz) hw1ne
  have hll : (([w1] : List Word).getLastD []).getLastD 'a' = z := by
    show w1.getLastD 'a' = z
    rw [List.getLastD_eq_getLast?, hz]
    rfl
  have hw2head : w2.head? = some z := by rw [hchain, hz]
  have hw2mem : w2 ∈ firstLetterMap (playableWords (normalizeSquare square) ws) z :=
    mem_firstLetterMap.2 ⟨hw2, hw2head⟩
  -- the scored candidate list and its sort
  have hw2pair : (w2, (w2.toFinset \ w1.toFinset).card) ∈
      List.insertionSort prioLe
        ((firstLetterMap (playableWords (normalizeSquare square) ws) z).map
          (fun w => (w, (w.toFinset \ w1.toFinset).card))) :=
    (List.mem_insertionSort prioLe).2
      (List.mem_map_of_mem (fun w => (w, (w.toFinset \ w1.toFinset).card)) hw2mem)
  rcases hsort : List.insertionSort prioLe
      ((firstLetterMap (playableWords (normalizeSquare square) ws) z).map
        (fun w => (w, (w.toFinset \ w1.toFinset).card))) with _ | ⟨c0, ctl⟩
  · rw [hsort] at hw2pair
    cases hw2pair
  · have hc0mem : c0 ∈ (firstLetterMap (playableWords (normalizeSquare square) ws) z).map
        (fun w => (w, (w.toFinset \ w1.toFinset).card)) := by
      have : c0 ∈ List.insertionSort prioLe
          ((firstLetterMap (playableWords (normalizeSquare square) ws) z).map
            (fun w => (w, (w.toFinset \ w1.toFinset).card))) := by
        rw [hsort]
        exact List.mem_cons_self _ _
      exact (List.mem_insertionSort prioLe).1 this
    rcases List.mem_map.1 hc0mem with ⟨u, hu, hc0⟩
    have humem : u ∈ playableWords (normalizeSquare square) ws :=
      (mem_firstLetterMap.1 hu).1
    -- the head of the sort maximizes the newly-covered count
    have hsorted : List.Pairwise prioLe (c0 :: ctl) := by
      rw [← hsort]
      exact List.sorted_insertionSort prioLe _
    have hrel := pairwise_head_rel hsorted (w2, (w2.toFinset \ w1.toFinset).card)
      (by rw [← hsort]; exact hw2pair)
    have hge : (w2.toFinset \ w1.toFinset).card ≤ c0.2 := by
      rcases hrel with heq | hle
      · exact le_of_eq (congrArg Prod.snd heq)
      · rcases hle with h | h
        · exact le_of_lt h
        · exact le_of_eq h.1.symm
    -- counting: the head's new letters are exactly the missing letters
    have hnew : c0.2 = (u.toFinset \ w1.toFinset).card := by rw [← hc0]
    have hsub1 : allLetters square \ w1.toFinset ⊆ w2.toFinset \ w1.toFinset := by
      intro c hc
      rcases Finset.mem_sdiff.1 hc with ⟨hca, hcw1⟩
      rcases Finset.mem_union.1 (hcover hca) with hcw | hcw
      · exact absurd hcw hcw1
      · exact Finset.mem_sdiff.2 ⟨hcw, hcw1⟩
    have hsub2 : u.toFinset \ w1.toFinset ⊆ allLetters square \ w1.toFinset := by
      intro c hc
      rcases Finset.mem_sdiff.1 hc with ⟨hcu, hcw1⟩
      exact Finset.mem_sdiff.2 ⟨playable_toFinset_subset humem hcu, hcw1⟩
    have hcard1 : (allLetters square \ w1.toFinset).card ≤ (w2.toFinset \ w1.toFinset).card :=
      Finset.card_le_card hsub1
    have hcard2 : (u.toFinset \ w1.toFinset).card ≤ (allLetters square \ w1.toFinset).card :=
      Finset.card_le_card hsub2
    have hEq : u.toFinset \ w1.toFinset = allLetters square \ w1.toFinset := by
      refine Finset.eq_of_subset_of_card_le hsub2 ?_
      rw [← hnew] at hcard2 ⊢
      omega
    have hcov : allLetters square ⊆ w1.toFinset ∪ u.toFinset := by
      intro c hc
      by_cases hcw1 : c ∈ w1.toFinset
      · exact Finset.mem_union.2 (Or.inl hcw1)
      · have : c ∈ u.toFinset \ w1.toFinset := by
          rw [hEq]
          exact Finset.mem_sdiff.2 ⟨hc, hcw1⟩
        exact Finset.mem_union.2 (Or.inr (Finset.mem_sdiff.1 this).1)
    refine ⟨u, (ctl.take 24).map
      (fun wi => (([w1] : List Word) ++ [wi.1], w1.toFinset ∪ wi.1.toFinset)), ?_, humem, hcov⟩
    show (List.insertionSort prioLe
        ((firstLetterMap (playableWords (normalizeSquare square) ws)
          ((([w1] : List Word).getLastD []).getLastD 'a')).map
          (fun w => (w, (w.toFinset \ w1.toFinset).card))) |>.take
            (if ([w1] : List Word).length = 1 then 25 else 15)).map
        (fun wi => (([w1] : List Word) ++ [wi.1], w1.toFinset ∪ wi.1.toFinset)) = _
    rw [hll, hsort, if_pos (show ([w1] : List Word).length = 1 by rfl)]
    rw [List.take_succ_cons, List.map_cons, ← hc0]
    rfl

theorem phaseA_front {playable : List Word} {w1 : Word} {cw : List Word}
    {ul : Finset Char} {rest : List ChainState} {v : List StateKey}
    (h : PhaseA playable w1 ((cw, ul) :: rest) v) :
    ((cw, ul) = (([w1], w1.toFinset) : ChainState) ∧ (∀ s ∈ rest, s.1.length ≤ 2)) ∨
    (cw.length = 1 ∧ ∃ q1 q2, rest = q1 ++ (([w1], w1.toFinset) : ChainState) :: q2 ∧
      (∀ s ∈ q1, s.1.length = 1) ∧ (∀ s ∈ q2, s.1.length ≤ 2)) := by
  rcases h.2.1 with ⟨q1, q2, hsplit, hq1, hq2⟩
  cases q1 with
  | nil =>
    rw [List.nil_append] at hsplit
    injection hsplit with hh ht
    left
    rw [ht]
    exact ⟨hh, hq2⟩
  | cons f q1' =>
    rw [List.cons_append] at hsplit
    injection hsplit with hh ht
    right
    refine ⟨?_, q1', q2, ht, fun s hs => hq1 s (List.mem_cons_of_mem f hs), hq2⟩
    have hf := hq1 f (List.mem_cons_self f q1')
    rw [← hh] at hf
    exact hf

theorem phaseB_front {sq : Square} {playable : List Word} {cw : List Word}
    {ul : Finset Char} {rest : List ChainState} {v : List StateKey}
    (h : PhaseB sq playable ((cw, ul) :: rest) v) :
    (HotState sq playable (cw, ul) ∧ keyOf (cw, ul) ∉ v) ∨
    (cw.length ≤ 2 ∧ ∃ q1 s0 q2, rest = q1 ++ s0 :: q2 ∧ HotState sq playable s0 ∧
      keyOf s0 ∉ v ∧ ∀ s ∈ q1, s.1.length ≤ 2) := by
  rcases h.2 with ⟨q1, s0, q2, hsplit, hhot, hkey, hq1⟩
  cases q1 with
  | nil =>
    rw [List.nil_append] at hsplit
    injection hsplit with hh _
    left
    rw [hh]
    exact ⟨hhot, hkey⟩
  | cons f q1' =>
    rw [List.cons_append] at hsplit
    injection hsplit with hh ht
    right
    refine ⟨?_, q1', s0, q2, ht, hhot, hkey,
      fun s hs => hq1 s (List.mem_cons_of_mem f hs)⟩
    have hf := hq1 f (List.mem_cons_self f q1')
    rw [← hh] at hf
    exact hf

/-- The core of the two-word-chain guarantee: starting from a queue that
still carries the unexpanded seed of `w1` (phase A) or an unvisited hot
state (phase B), with no best solution yet, the loop can only report a
solution of at most two words. -/
theorem searchLoop_two_chain (square : Square) (ws : List Word) (w1 w2 : Word)
    (hw1 : w1 ∈ playableWords (normalizeSquare square) ws)
    (hw2 : w2 ∈ playableWords (normalizeSquare square) ws)
    (hchain : w2.head? = w1.getLast?)
    (hcover : allLetters square ⊆ w1.toFinset ∪ w2.toFinset) :
    ∀ (fuel : Nat) (q : List ChainState) (v : List StateKey),
      (PhaseA (playableWords (normalizeSquare square) ws) w1 q v ∨
        PhaseB square (playableWords (normalizeSquare square) ws) q v) →
      ∀ sol,
        searchLoop square (allLetters square)
          (firstLetterMap (playableWords (normalizeSquare square) ws)) fuel q v none =
          some sol →
        sol ≠ [] ∧ sol.length ≤ 2 := by
  have hseedwf : StateWF (playableWords (normalizeSquare square) ws)
      ([w1], w1.toFinset) := seed_wf hw1 (playable_ne_nil w1 hw1)
  intro fuel
  induction fuel with
  | zero =>
    intro q v _ sol h
    cases h
  | succ fuel ih =>
    intro q v hphase sol h
    cases q with
    | nil => cases h
    | cons s rest =>
      obtain ⟨cw, ul⟩ := s
      have hwfq : ∀ t ∈ (cw, ul) :: rest,
          StateWF (playableWords (normalizeSquare square) ws) t := by
        rcases hphase with hA | hB
        · exact hA.1
        · exact hB.1
      have hwf : StateWF (playableWords (normalizeSquare square) ws) (cw, ul) :=
        hwfq _ (List.mem_cons_self _ _)
      have hrestwf : ∀ t ∈ rest, StateWF (playableWords (normalizeSquare square) ws) t :=
        fun t ht => hwfq t (List.mem_cons_of_mem _ ht)
      have hlen2 : cw.length ≤ 2 := by
        rcases hphase with hA | hB
        · rcases phaseA_front hA with ⟨heq, -⟩ | ⟨hl, -⟩
          · have : cw = [w1] := congrArg Prod.fst heq
            rw [this]
            exact one_le_two
          · omega
        · rcases phaseB_front hB with ⟨hhot, -⟩ | ⟨hl, -⟩
          · exact hhot.2.1
          · exact hl
      rw [searchLoop] at h
      split_ifs at h with h1 h2 h3 h4 h5
      · -- the prune gate never fires while best is `none`
        simp [pruneGate] at h1
      · -- the front key was already visited: drop the front
        refine ih rest v ?_ sol h
        rcases hphase with hA | hB
        · left
          rcases phaseA_front hA with ⟨heq, -⟩ | ⟨-, q1, q2, hrest, hq1, hq2⟩
          · rw [heq] at h2
            exact absurd h2 hA.2.2.1
          · exact ⟨hrestwf, ⟨q1, q2, hrest, hq1, hq2⟩, hA.2.2.1, hA.2.2.2⟩
        · right
          rcases phaseB_front hB with ⟨-, hkey⟩ | ⟨-, q1, s0, q2, hrest, hhot, hkey, hq1⟩
          · exact absurd h2 hkey
          · exact ⟨hrestwf, q1, s0, q2, hrest, hhot, hkey, hq1⟩
      · -- goal state: its chain has at most two words, so the loop breaks
        cases h
        exact ⟨hwf.1, hlen2⟩
      · -- the double check never disagrees with the subset test
        exact absurd (covers_of_wf_subset hwf h3) h4
      · -- the depth cap cannot fire on a front of length ≤ 2
        have h5' : (5 : Nat) ≤ cw.length := h5
        omega
      · -- expansion
        rcases hphase with hA | hB
        · by_cases hfseed : (cw, ul) = (([w1], w1.toFinset) : ChainState)
          · -- the seed of w1 is being expanded: move to phase B
            have hcw : cw = [w1] := congrArg Prod.fst hfseed
            have hul : ul = w1.toFinset := congrArg Prod.snd hfseed
            subst hcw
            subst hul
            rcases expand_seed_has_hot square ws w1 w2 hw1 hw2 hchain hcover with
              ⟨u, ctail, hchild, humem, hucov⟩
            rw [hchild] at h
            refine ih _ _ (Or.inr ?_) sol h
            have hrestle : ∀ s ∈ rest, s.1.length ≤ 2 := by
              rcases phaseA_front hA with ⟨-, hle⟩ | ⟨-, q1, q2, hrest, hq1, hq2⟩
              · exact hle
              · intro s hs
                rw [hrest] at hs
                rcases List.mem_append.1 hs with hs | hs
                · rw [hq1 s hs]
                  exact one_le_two
                · rcases List.mem_cons.1 hs with rfl | hs
                  · exact one_le_two
                  · exact hq2 s hs
            have hhotwf : StateWF (playableWords (normalizeSquare square) ws)
                ([w1, u], w1.toFinset ∪ u.toFinset) := by
              refine expand_wf playable_ne_nil hseedwf ?_
              rw [hchild]
              exact List.mem_cons_self _ _
            refine ⟨?_, rest, ([w1, u], w1.toFinset ∪ u.toFinset), ctail, rfl,
              ⟨hhotwf, by simp, hucov⟩, ?_, hrestle⟩
            · intro t ht
              rcases List.mem_append.1 ht with ht | ht
              · exact hrestwf t ht
              · refine expand_wf playable_ne_nil hseedwf ?_
                rw [hchild]
                exact ht
            · -- the hot key is new: all visited keys and the seed key list one word
              intro hmem
              rcases List.mem_cons.1 hmem with heq | hmem
              · have : ([w1, u] : List Word).length = ([w1] : List Word).length :=
                  congrArg List.length (congrArg Prod.fst heq)
                simp at this
              · have := hA.2.2.2 _ hmem
                simp [keyOf] at this
          · -- an ordinary single-word state is being expanded: stay in phase A
            rcases phaseA_front hA with ⟨heq, -⟩ | ⟨hlen1, q1, q2, hrest, hq1, hq2⟩
            · exact absurd heq hfseed
            · refine ih _ _ (Or.inl ?_) sol h
              refine ⟨?_, ⟨q1, q2 ++ expandState
                  (firstLetterMap (playableWords (normalizeSquare square) ws)) cw ul,
                  ?_, hq1, ?_⟩, ?_, ?_⟩
              · intro t ht
                rcases List.mem_append.1 ht with ht | ht
                · exact hrestwf t ht
                · exact expand_wf playable_ne_nil hwf ht
              · rw [hrest]
                simp [List.append_assoc]
              · intro t ht
                rcases List.mem_append.1 ht with ht | ht
                · exact hq2 t ht
                · rw [expandState_chain_length t ht, hlen1]
              · intro hmem
                rcases List.mem_cons.1 hmem with heq | hmem
                · have hst : (([w1], w1.toFinset) : ChainState) = (cw, ul) :=
                    keyOf_inj_of_wf hseedwf hwf heq
                  exact hfseed hst.symm
                · exact hA.2.2.1 hmem
              · intro k hk
                rcases List.mem_cons.1 hk with rfl | hk
                · exact hlen1
                · exact hA.2.2.2 k hk
        · -- phase B: the hot state stays put behind the expanded front
          rcases phaseB_front hB with ⟨hhot, -⟩ | ⟨-, q1, s0, q2, hrest, hhot, hkey, hq1⟩
          · exact absurd hhot.2.2 h3
          · refine ih _ _ (Or.inr ⟨?_, q1, s0, q2 ++ expandState
                (firstLetterMap (playableWords (normalizeSquare square) ws)) cw ul,
                ?_, hhot, ?_, hq1⟩) sol h
            · intro t ht
              rcases List.mem_append.1 ht with ht | ht
              · exact hrestwf t ht
              · exact expand_wf playable_ne_nil hwf ht
            · rw [hrest]
              simp [List.append_assoc]
            · intro hmem
              rcases List.mem_cons.1 hmem with heq | hmem
              · have hst : s0 = (cw, ul) := keyOf_inj_of_wf hhot.1 hwf heq
                rw [hst] at hhot
                exact h3 hhot.2.2
              · exact hkey hmem

/-- C2: whenever two playable words chain (last letter of the first equals
first letter of the second) and together cover the square, the solver
returns a nonempty result of at most two words — either the loop breaks on
a two-word covering state, or (the budget exhausted first) the fallback
returns a single word. -/
theorem c2_two_word_chain_yields_short_result (square : Square) (dictionary : List Word)
    (h : ∃ w1 ∈ playableWords (normalizeSquare square) dictionary,
      ∃ w2 ∈ playableWords (normalizeSquare square) dictionary,
        w2.head? = w1.getLast? ∧ allLetters square ⊆ w1.toFinset ∪ w2.toFinset) :
    find_shortest_solution square dictionary ≠ [] ∧
    (find_shortest_solution square dictionary).length ≤ 2 := by
  rcases h with ⟨w1, hw1, w2, hw2, hchain, hcover⟩
  have hply : playableWords (normalizeSquare square) dictionary ≠ [] := by
    intro hn
    rw [hn] at hw1
    cases hw1
  rcases hcore : solveCore square dictionary with _ | sol
  · rw [find_shortest_eq_of_core_none hcore hply]
    have hperm := List.perm_insertionSort (fallbackLe (allLetters square))
      (playableWords (normalizeSquare square) dictionary)
    have hbne : List.insertionSort (fallbackLe (allLetters square))
        (playableWords (normalizeSquare square) dictionary) ≠ [] := by
      intro hn
      rw [hn] at hperm
      exact hply hperm.symm.eq_nil
    rcases hlast : (List.insertionSort (fallbackLe (allLetters square))
        (playableWords (normalizeSquare square) dictionary)).getLast? with _ | bw
    · exact absurd (List.getLast?_eq_none_iff.1 hlast) hbne
    · exact ⟨by simp, by simp⟩
  · have hseed : PhaseA (playableWords (normalizeSquare square) dictionary) w1
        ((playableWords (normalizeSquare square) dictionary).map
          (fun w => ([w], w.toFinset))) [] := by
      refine ⟨?_, ?_, by simp, by simp⟩
      · intro s hs
        rcases List.mem_map.1 hs with ⟨w, hw, rfl⟩
        exact seed_wf hw (playable_ne_nil w hw)
      · rcases List.append_of_mem (List.mem_map_of_mem
            (fun w => (([w], w.toFinset) : ChainState)) hw1) with ⟨q1, q2, hsplit⟩
        refine ⟨q1, q2, hsplit, ?_, ?_⟩
        · intro s hs
          have hsq : s ∈ (playableWords (normalizeSquare square) dictionary).map
              (fun w => (([w], w.toFinset) : ChainState)) := by
            rw [hsplit]
            exact List.mem_append_left _ hs
          rcases List.mem_map.1 hsq with ⟨w, _, rfl⟩
          rfl
        · intro s hs
          have hsq : s ∈ (playableWords (normalizeSquare square) dictionary).map
              (fun w => (([w], w.toFinset) : ChainState)) := by
            rw [hsplit]
            exact List.mem_append_right _ (List.mem_cons_of_mem _ hs)
          rcases List.mem_map.1 hsq with ⟨w, _, rfl⟩
          exact one_le_two
    have hbound := searchLoop_two_chain square dictionary w1 w2 hw1 hw2 hchain hcover
      max_iterations _ [] (Or.inl hseed) sol hcore
    rw [find_shortest_eq_of_core_some hcore]
    by_cases hall : sol.all
        (fun w => ((originalCase (normalizeSquare square) dictionary) w).isSome) = true
    · rw [if_pos hall]
      constructor
      · intro hn
        exact hbound.1 (List.map_eq_nil_iff.1 hn)
      · rw [List.length_map]
        exact hbound.2
    · rw [if_neg hall]
      exact hbound

/-- Witness for C2 at the spec's Scenario A inputs. -/
theorem c2_two_word_chain_yields_short_result_witness :
    find_shortest_solution sampleSquare
      [['A','G','B','H','C','I'], ['I','J','D','K','E','L','F']] ≠ [] ∧
    (find_shortest_solution sampleSquare
      [['A','G','B','H','C','I'], ['I','J','D','K','E','L','F']]).length ≤ 2 :=
  c2_two_word_chain_yields_short_result sampleSquare
    [['A','G','B','H','C','I'], ['I','J','D','K','E','L','F']] (by decide)
